import Mathlib

/-!
Verification of the ReAct agent loop in `React/client.py`.

The development shallowly embeds the two classes of the source file:

* `HelloAgentsLLM.think` — the Model Gateway: it calls the provider inside a
  `try`, joins the streamed chunks, and converts any raised error into `None`.
  We model a provider outcome as `Except String (List String)` (an error, or
  the list of streamed chunks).

* `ReactLLM.run` / `_parse_output` / `_parse_action` and the inline
  final-answer extraction — the agent loop and output parser.  Python strings
  become Lean `String`s (lists of characters); the three regexes of the source
  are embedded by their exact matching semantics, documented at each
  definition.

The tool registry (`tools.py`) is not part of the sources; following §4.2 of
the specification, it is modelled as an association list with exact-match
lookup.  The model text returned at each step is abstracted as an oracle
indexed by the step number, which captures every possible gateway behaviour.
-/

namespace React

/-- Python's `\s` for the ASCII range: space, tab, newline, carriage return,
vertical tab and form feed.  (Python's `str.strip` and `\s` additionally match
non-ASCII Unicode whitespace, which no text handled by the source exercises;
the embedding fixes the ASCII set.) -/
def pyIsSpace (c : Char) : Bool :=
  c = ' ' || c = '\t' || c = '\n' || c = '\r' || c = '\x0b' || c = '\x0c'

/-- Python's `str.strip()` on a character list: drop whitespace from both
ends. -/
def pyStripList (l : List Char) : List Char :=
  ((l.dropWhile pyIsSpace).reverse.dropWhile pyIsSpace).reverse

/-- Python's `str.strip()` on strings. -/
def pyStrip (s : String) : String :=
  ⟨pyStripList s.data⟩

/-- Python's `str.startswith`: `strStarts p s` holds when `p` is a prefix of
`s`. -/
def strStarts (p s : String) : Bool :=
  p.data.isPrefixOf s.data

/-- Python's `\w` (identifier characters of `_parse_action`).  Python's
Unicode `\w` matches letters, digits and underscore; the embedding covers the
ASCII word characters together with the CJK unified ideographs, which are the
only non-ASCII word characters appearing in the repository's texts. -/
def isWordChar (c : Char) : Bool :=
  c.isAlphanum || c = '_' || (0x4E00 ≤ c.toNat && c.toNat ≤ 0x9FFF)

/-- The character class `[\[:：\s]` of the `Finish`-stripping regex:
an opening bracket, an ASCII colon, a full-width colon, or whitespace. -/
def isSepChar (c : Char) : Bool :=
  c = '[' || c = ':' || c = '：' || pyIsSpace c

/-- Index of the first occurrence of the literal `pat` in `l`
(`re.search` scanning for a literal). -/
def findSub (pat : List Char) : List Char → Option Nat
  | [] => if pat = [] then some 0 else none
  | c :: cs =>
    if pat.isPrefixOf (c :: cs) then some 0
    else (findSub pat cs).map (· + 1)

/-- Index of the last occurrence of the character `c` in `l` (the position a
greedy `(.*)` followed by a literal `c` backtracks to). -/
def lastIdxOf (c : Char) : List Char → Option Nat
  | [] => none
  | x :: xs =>
    match lastIdxOf c xs with
    | some i => some (i + 1)
    | none => if x = c then some 0 else none

/-- The lazy group `(.*?)(?=stop)`: take characters until the remaining text
satisfies `stop` (end of input always stops). -/
def lazyTake (stop : List Char → Bool) : List Char → List Char
  | [] => []
  | c :: cs => if stop (c :: cs) then [] else c :: lazyTake stop cs

/-- Stop condition of the thought regex `Thought:\s*(.*?)(?=\nAction:|$)` in
non-`MULTILINE` mode: the lookahead fires where `"\nAction:"` follows, and
`$` fires at end of text or before a single trailing newline. -/
def thoughtStop (r : List Char) : Bool :=
  ("\nAction:".data).isPrefixOf r || r = ['\n']

/-- Stop condition of the action regex `Action:\s*(.*?)$`: `$` fires at end
of text or before a single trailing newline. -/
def actionStop (r : List Char) : Bool :=
  r = ['\n']

/-- The thought field of `_parse_output`:
`re.search(r"Thought:\s*(.*?)(?=\nAction:|$)", text, re.DOTALL)`, then
`.group(1).strip()`.  The search anchors at the first occurrence of the
literal `"Thought:"` (the rest of the pattern always matches there), the
greedy `\s*` consumes the maximal whitespace run, and the lazy group stops at
the first position where `"\nAction:"` follows or `$` matches. -/
def thoughtOf (l : List Char) : Option (List Char) :=
  (findSub "Thought:".data l).map fun i =>
    let r := l.drop (i + 8)
    let r2 := r.drop (r.takeWhile pyIsSpace).length
    pyStripList (lazyTake thoughtStop r2)

/-- The action field of `_parse_output`:
`re.search(r"Action:\s*(.*?)$", text, re.DOTALL)`, then `.group(1).strip()`.
The search anchors at the first occurrence of the literal `"Action:"`, the
greedy `\s*` consumes the maximal whitespace run, and the lazy group stops
where `$` first matches (end of text, or before a single trailing
newline). -/
def actionOf (l : List Char) : Option (List Char) :=
  (findSub "Action:".data l).map fun i =>
    let r := l.drop (i + 7)
    let r2 := r.drop (r.takeWhile pyIsSpace).length
    pyStripList (lazyTake actionStop r2)

/-- `ReactLLM._parse_output`: returns the optional thought and the optional
action extracted from the raw model text. -/
def parseOutput (text : String) : Option String × Option String :=
  ((thoughtOf text.data).map (fun l => (⟨l⟩ : String)),
   (actionOf text.data).map (fun l => (⟨l⟩ : String)))

/-- `ReactLLM._parse_action`: `re.match(r"(\w+)\[(.*)\]", action_text,
re.DOTALL)`.  Anchored at the start: a maximal non-empty run of word
characters must be followed by `'['`; the greedy `(.*)` then extends to the
last `']'` of the remainder (trailing text after it is allowed, since
`re.match` only matches a prefix). -/
def parseAction (actionText : String) : Option (String × String) :=
  let l := actionText.data
  let w := l.takeWhile isWordChar
  let rest := l.drop w.length
  if w = [] then none
  else if rest.head? = some '[' then
    match lastIdxOf ']' rest.tail with
    | some i => some (⟨w⟩, ⟨rest.tail.take i⟩)
    | none => none
  else none

/-- The bracketed branch of the final-answer extraction:
`re.match(r"Finish\s*\[(.*)\]", s, re.DOTALL)` applied to the stripped
action.  After the literal `"Finish"` the greedy `\s*` consumes the maximal
whitespace run, the next character must be `'['`, and the greedy `(.*)`
extends to the last `']'` of the remainder. -/
def finishBracket (s : List Char) : Option (List Char) :=
  if "Finish".data.isPrefixOf s then
    let r := s.drop 6
    let r2 := r.drop (r.takeWhile pyIsSpace).length
    if r2.head? = some '[' then
      match lastIdxOf ']' r2.tail with
      | some i => some (r2.tail.take i)
      | none => none
    else none
  else none

/-- The inline final-answer extraction of `ReactLLM.run` (step 4): on the
stripped action, either the bracketed content of `Finish[...]`, stripped; or,
failing that, `re.sub(r"^Finish\s*[\[:：\s]+", "", s)` — drop `"Finish"`
together with the maximal non-empty run of separator characters — stripped,
with the stripped original as a fallback when the result is empty
(`... .strip() or action.strip()`). -/
def extractFinalAnswer (action : String) : String :=
  let s := pyStripList action.data
  match finishBracket s with
  | some content => ⟨pyStripList content⟩
  | none =>
    let stripped :=
      if "Finish".data.isPrefixOf s then
        let r := s.drop 6
        let k := (r.takeWhile isSepChar).length
        if k = 0 then s else r.drop k
      else s
    let t := pyStripList stripped
    if t = [] then ⟨s⟩ else ⟨t⟩

/-- A provider outcome, as seen inside `HelloAgentsLLM.think`'s `try` block:
either a raised transport/provider error, or the list of streamed content
chunks. -/
abbrev ProviderResult := Except String (List String)

/-- `HelloAgentsLLM.think`: joins the streamed chunks into one string; any
exception raised by the provider is caught and converted to `None`. -/
def think (r : ProviderResult) : Option String :=
  match r with
  | Except.ok chunks => some (String.join chunks)
  | Except.error _ => none

/-- A registered tool: its invocable function.  Tool code may raise
(`Except.error`) — the loop does not catch such a fault — or return an
observation string. -/
abbrev Tool := String → Except String String

/-- Modelled from the spec: `ToolExecutor` (`tools.py`) is not among the
sources; §4.2 specifies `lookup` as exact, case-sensitive name matching on
the registered (name, description, function) entries, absence being a normal
outcome.  The registry is an association list of names and functions. -/
def lookupTool (tools : List (String × Tool)) (name : String) : Option Tool :=
  match tools with
  | [] => none
  | (n, f) :: rest => if n = name then some f else lookupTool rest name

/-- The observation produced when dispatch names an unregistered tool:
`f"错误:未找到名为 '{tool_name}' 的工具。"`. -/
def toolNotFoundMsg (name : String) : String :=
  "错误:未找到名为 \x27" ++ name ++ "\x27 的工具。"

/-- Outcome of one iteration of the `while` body of `ReactLLM.run`, after
the gateway call returned `resp`:

* `halt ans` — the loop ends this iteration, `run` returning `ans`
  (`none` for each `break`, `some a` for the terminal `Finish` action);
* `grow action obs` — a non-terminal, successfully dispatched step: the pair
  `Action/Observation` is appended to the history and the loop continues;
* `raise e` — a registered tool raised `e`; nothing catches it, so it
  propagates out of `run`. -/
inductive StepOut where
  | halt (ans : Option String)
  | grow (action obs : String)
  | raise (e : String)
  deriving Repr, DecidableEq

/-- The body of the `while` loop of `ReactLLM.run` (steps 2–6 of §4.4),
given the gateway's response for this iteration.  `if not response_text`
breaks on `None` and on the empty string alike; `if not action` and
`if not tool_name or not tool_input` likewise treat absent and empty the
same way. -/
def stepOf (tools : List (String × Tool)) (resp : Option String) : StepOut :=
  match resp with
  | none => .halt none
  | some t =>
    if t = "" then .halt none
    else
      match (parseOutput t).2 with
      | none => .halt none
      | some action =>
        if action = "" then .halt none
        else if strStarts "Finish" (pyStrip action) then
          .halt (some (extractFinalAnswer action))
        else
          match parseAction action with
          | none => .halt none
          | some (toolName, toolInput) =>
            if toolName = "" || toolInput = "" then .halt none
            else
              match lookupTool tools toolName with
              | none => .grow action (toolNotFoundMsg toolName)
              | some f =>
                match f toolInput with
                | Except.error e => .raise e
                | Except.ok obs => .grow action obs

/-- The observable outcome of a `run` invocation:

* `answer` — `run`'s return value (`some` final answer, or `none`) when no
  tool fault propagated;
* `history` — the contents of `self.history` when the loop ended;
* `calls` — the values of `current_step` at each gateway (`think`) call, in
  order;
* `dispatched` — how many non-terminal steps appended their
  `Action/Observation` pair;
* `exn` — `some e` when a registered tool raised `e` and the exception
  escaped `run`, else `none`. -/
structure RunResult where
  answer : Option String
  history : List String
  calls : List Nat
  dispatched : Nat
  exn : Option String
  deriving Repr, DecidableEq

/-- The `while current_step < max_steps` loop of `ReactLLM.run`, with
`remaining = max_steps - step` iterations left and `step` the current value
of `current_step`.  The oracle gives the gateway's response for each step
index; exhausting the budget returns `None` with the history unchanged. -/
def runGo (tools : List (String × Tool)) (oracle : Nat → Option String) :
    Nat → Nat → List String → RunResult
  | 0, _, hist => ⟨none, hist, [], 0, none⟩
  | remaining + 1, step, hist =>
    match stepOf tools (oracle step) with
    | .halt ans => ⟨ans, hist, [step + 1], 0, none⟩
    | .raise e => ⟨none, hist, [step + 1], 0, some e⟩
    | .grow action obs =>
      let res := runGo tools oracle remaining (step + 1)
        (hist ++ ["Action: " ++ action, "Observation: " ++ obs])
      ⟨res.answer, res.history, (step + 1) :: res.calls, res.dispatched + 1,
       res.exn⟩

/-- `ReactLLM.run`: resets the history to `[]`, then iterates the loop body
at most `maxSteps` times.  The provider's behaviour at each step is given by
`provider`; each response passes through the gateway (`think`). -/
def run (tools : List (String × Tool)) (provider : Nat → ProviderResult)
    (maxSteps : Nat) : RunResult :=
  runGo tools (fun n => think (provider n)) maxSteps 0 []

/-- The history fragment contributed by a list of dispatched
(action, observation) pairs. -/
def pairEntries : List (String × String) → List String
  | [] => []
  | (a, o) :: rest => ("Action: " ++ a) :: ("Observation: " ++ o) :: pairEntries rest

/-! ## Specification-side definitions

The following definitions transcribe claim sentences, to be compared with the
embedded source functions above.  They are deliberately phrased with
different combinators (last-occurrence search, index search over `find?`)
than the source embedding. -/

/-- Index of the last occurrence of the literal `pat` in `l`. -/
def findSubLast (pat : List Char) : List Char → Option Nat
  | [] => if pat = [] then some 0 else none
  | c :: cs =>
    match findSubLast pat cs with
    | some i => some (i + 1)
    | none => if pat.isPrefixOf (c :: cs) then some 0 else none

/-- The thought field as the claim words it: the text following a
`"Thought:"` marker up to (not including) the next `"Action:"` marker or end
of text, trimmed. -/
def claimThought (l : List Char) : Option (List Char) :=
  (findSub "Thought:".data l).map fun i =>
    let r := l.drop (i + 8)
    pyStripList (r.take ((findSub "Action:".data r).getD r.length))

/-- The action field as the claim words it: the text following the last
`"Action:"` marker to end of text, trimmed. -/
def claimAction (l : List Char) : Option (List Char) :=
  (findSubLast "Action:".data l).map fun i =>
    pyStripList (l.drop (i + 7))

/-- `parse_output` as the claim words it (thought to the next marker, action
from the last marker). -/
def claimParseOutput (text : String) : Option String × Option String :=
  ((claimThought text.data).map (fun l => (⟨l⟩ : String)),
   (claimAction text.data).map (fun l => (⟨l⟩ : String)))

/-- The first index `j` of `r` (up to and including `r.length`) at which
`stop (r.drop j)` holds, end of input stopping always. -/
def firstStop (stop : List Char → Bool) (r : List Char) : Nat :=
  (((List.range (r.length + 1)).find? fun j =>
      stop (r.drop j) || decide (r.length ≤ j)).getD r.length)

/-- The thought field as the amended claim words it: the text following the
first `"Thought:"` marker, the whitespace run after the marker skipped, up to
the next `"Action:"` marker that immediately follows a newline — or to end of
text, a single trailing newline excluded — trimmed. -/
def amendedThought (l : List Char) : Option (List Char) :=
  (findSub "Thought:".data l).map fun i =>
    let r := (l.drop (i + 8)).dropWhile pyIsSpace
    pyStripList (r.take (firstStop thoughtStop r))

/-- The action field as the amended claim words it: the text following the
first `"Action:"` marker, the whitespace run after the marker skipped, to end
of text — a single trailing newline excluded — trimmed. -/
def amendedAction (l : List Char) : Option (List Char) :=
  (findSub "Action:".data l).map fun i =>
    let r := (l.drop (i + 7)).dropWhile pyIsSpace
    pyStripList (r.take (firstStop actionStop r))

/-- `parse_output` as the amended claim words it. -/
def amendedParseOutput (text : String) : Option String × Option String :=
  ((amendedThought text.data).map (fun l => (⟨l⟩ : String)),
   (amendedAction text.data).map (fun l => (⟨l⟩ : String)))

/-- All registered tools return an observation (no tool raises). -/
def ToolsTotal (tools : List (String × Tool)) : Prop :=
  ∀ p ∈ tools, ∀ arg, ∃ s, p.2 arg = Except.ok s

/-- A registry with one well-behaved `Search` tool, used to instantiate
theorems with hypotheses. -/
def demoTools : List (String × Tool) :=
  [("Search", fun q => Except.ok ("result for " ++ q))]

/-- A registry whose single tool raises on every input. -/
def boomTools : List (String × Tool) :=
  [("Boom", fun _ => Except.error "boom")]

/-! ## General list lemmas -/

theorem drop_length_takeWhile (p : Char → Bool) (l : List Char) :
    l.drop (l.takeWhile p).length = l.dropWhile p := by
  induction l with
  | nil => rfl
  | cons c cs ih =>
    by_cases h : p c <;>
      simp [List.takeWhile_cons, List.dropWhile_cons, h, ih]

theorem takeWhile_append_eq (p : Char → Bool) (xs ys : List Char)
    (h1 : ∀ x ∈ xs, p x = true)
    (h2 : ∀ c, ys.head? = some c → p c = false) :
    (xs ++ ys).takeWhile p = xs := by
  induction xs with
  | nil =>
    cases ys with
    | nil => rfl
    | cons c cs => simp [List.takeWhile_cons, h2 c rfl]
  | cons x xs ih =>
    simp only [List.cons_append, List.takeWhile_cons, h1 x (by simp),
      if_true, List.cons.injEq, true_and]
    exact ih fun a ha => h1 a (by simp [ha])

theorem lastIdxOf_eq_none (c : Char) (l : List Char) :
    lastIdxOf c l = none ↔ c ∉ l := by
  induction l with
  | nil => simp [lastIdxOf]
  | cons x xs ih =>
    cases h : lastIdxOf c xs with
    | some i =>
      have hmem : c ∈ xs := by
        by_contra hc
        rw [← ih] at hc
        simp [h] at hc
      simp [lastIdxOf, h, hmem]
    | none =>
      by_cases hxc : x = c
      · simp [lastIdxOf, h, hxc]
      · simp [lastIdxOf, h, hxc, ih.mp h, Ne.symm hxc]

theorem lastIdxOf_eq_some (c : Char) (l : List Char) :
    ∀ i, lastIdxOf c l = some i ↔
      ∃ l1 l2, l = l1 ++ c :: l2 ∧ l1.length = i ∧ c ∉ l2 := by
  induction l with
  | nil => intro i; simp [lastIdxOf]
  | cons x xs ih =>
    intro i
    constructor
    · intro h
      cases hxs : lastIdxOf c xs with
      | some j =>
        simp only [lastIdxOf, hxs, Option.some.injEq] at h
        obtain ⟨l1, l2, hl, hlen, hnot⟩ := (ih j).mp hxs
        exact ⟨x :: l1, l2, by simp [hl], by simp [hlen, h], hnot⟩
      | none =>
        simp only [lastIdxOf, hxs] at h
        by_cases hxc : x = c
        · rw [if_pos hxc] at h
          simp only [Option.some.injEq] at h
          exact ⟨[], xs, by simp [hxc], by simp [← h],
            (lastIdxOf_eq_none c xs).mp hxs⟩
        · rw [if_neg hxc] at h
          exact absurd h (by simp)
    · rintro ⟨l1, l2, hl, hlen, hnot⟩
      cases l1 with
      | nil =>
        simp only [List.nil_append, List.cons.injEq] at hl
        obtain ⟨hx, hxs2⟩ := hl
        have hnone : lastIdxOf c xs = none :=
          (lastIdxOf_eq_none c xs).mpr (hxs2 ▸ hnot)
        simp only [lastIdxOf, hnone, if_pos hx]
        simp only [List.length_nil] at hlen
        simp [← hlen]
      | cons y l1 =>
        simp only [List.cons_append, List.cons.injEq] at hl
        obtain ⟨hxy, hxs2⟩ := hl
        have hsome : lastIdxOf c xs = some l1.length :=
          (ih l1.length).mpr ⟨l1, l2, hxs2, rfl, hnot⟩
        simp only [lastIdxOf, hsome, Option.some.injEq]
        simp only [List.length_cons] at hlen
        exact hlen

theorem pairEntries_length (l : List (String × String)) :
    (pairEntries l).length = 2 * l.length := by
  induction l with
  | nil => rfl
  | cons p rest ih => simp [pairEntries, ih]; omega

/-! ## Loop lemmas -/

theorem lookupTool_mem (tools : List (String × Tool)) (name : String)
    (f : Tool) (h : lookupTool tools name = some f) : (name, f) ∈ tools := by
  induction tools with
  | nil => simp [lookupTool] at h
  | cons p rest ih =>
    obtain ⟨n, g⟩ := p
    rw [lookupTool] at h
    by_cases hn : n = name
    · rw [if_pos hn] at h
      injection h with h2
      subst hn
      subst h2
      simp
    · rw [if_neg hn] at h
      simp [ih h]

theorem stepOf_ne_raise (tools : List (String × Tool))
    (hT : ToolsTotal tools) (resp : Option String) (e : String) :
    stepOf tools resp ≠ StepOut.raise e := by
  cases resp with
  | none => simp [stepOf]
  | some t =>
    simp only [stepOf]
    by_cases h0 : t = ""
    · simp [h0]
    · rw [if_neg h0]
      split
      · simp
      · next action heq1 =>
        by_cases h2 : action = ""
        · simp [h2]
        · rw [if_neg h2]
          by_cases h3 : strStarts "Finish" (pyStrip action) = true
          · simp [h3]
          · rw [if_neg h3]
            split
            · simp
            · next toolName toolInput heq4 =>
              by_cases h5 : (decide (toolName = "") || decide (toolInput = "")) = true
              · simp [h5]
              · rw [if_neg h5]
                split
                · simp
                · next f heq6 =>
                  obtain ⟨s, hs⟩ := hT _ (lookupTool_mem _ _ _ heq6) toolInput
                  have hs2 : f toolInput = Except.ok s := hs
                  rw [hs2]
                  simp

theorem runGo_exn_none (tools : List (String × Tool))
    (oracle : Nat → Option String) (hT : ToolsTotal tools) :
    ∀ r step hist, (runGo tools oracle r step hist).exn = none := by
  intro r
  induction r with
  | zero => intro step hist; rfl
  | succ r ih =>
    intro step hist
    cases h : stepOf tools (oracle step) with
    | halt ans => simp [runGo, h]
    | raise e => exact absurd h (stepOf_ne_raise tools hT _ e)
    | grow a o => simp [runGo, h, ih]

theorem runGo_history_shape (tools : List (String × Tool))
    (oracle : Nat → Option String) :
    ∀ r step hist, ∃ pairs,
      (runGo tools oracle r step hist).history = hist ++ pairEntries pairs ∧
      pairs.length = (runGo tools oracle r step hist).dispatched := by
  intro r
  induction r with
  | zero => intro step hist; exact ⟨[], by simp [runGo, pairEntries]⟩
  | succ r ih =>
    intro step hist
    cases h : stepOf tools (oracle step) with
    | halt ans => exact ⟨[], by simp [runGo, h, pairEntries]⟩
    | raise e => exact ⟨[], by simp [runGo, h, pairEntries]⟩
    | grow a o =>
      obtain ⟨ps, h1, h2⟩ := ih (step + 1)
        (hist ++ ["Action: " ++ a, "Observation: " ++ o])
      exact ⟨(a, o) :: ps, by simp [runGo, h, pairEntries, h1],
        by simp [runGo, h, h2]⟩

theorem runGo_calls_range (tools : List (String × Tool))
    (oracle : Nat → Option String) :
    ∀ r step hist, ∃ m, m ≤ r ∧
      (runGo tools oracle r step hist).calls =
        (List.range m).map (· + (step + 1)) := by
  intro r
  induction r with
  | zero => intro step hist; exact ⟨0, Nat.le_refl 0, by simp [runGo]⟩
  | succ r ih =>
    intro step hist
    cases h : stepOf tools (oracle step) with
    | halt ans => exact ⟨1, by omega, by simp [runGo, h, List.range_succ]⟩
    | raise e => exact ⟨1, by omega, by simp [runGo, h, List.range_succ]⟩
    | grow a o =>
      obtain ⟨m, hm, hcalls⟩ := ih (step + 1)
        (hist ++ ["Action: " ++ a, "Observation: " ++ o])
      refine ⟨m + 1, by omega, ?_⟩
      simp only [runGo, h, hcalls, List.range_succ_eq_map, List.map_cons,
        List.map_map]
      congr 1
      · omega
      · apply List.map_congr_left
        intro i _
        simp only [Function.comp_apply]
        omega

/-! ## Claim theorems: the agent loop -/

/-- Claim C4: within one `run` invocation the history starts empty and is
exactly the concatenation, in order, of one `"Action: ..."` entry followed by
one `"Observation: ..."` entry per non-terminal, successfully dispatched
step; every break condition contributes nothing.  Hence after `n` completed
non-terminal steps its length is exactly `2 * n`. -/
theorem history_grows_in_pairs (tools : List (String × Tool))
    (provider : Nat → ProviderResult) (k : Nat) :
    ∃ pairs : List (String × String),
      (run tools provider k).history = pairEntries pairs ∧
      pairs.length = (run tools provider k).dispatched ∧
      (run tools provider k).history.length =
        2 * (run tools provider k).dispatched := by
  obtain ⟨pairs, h1, h2⟩ :=
    runGo_history_shape tools (fun n => think (provider n)) k 0 []
  have hh : (run tools provider k).history = pairEntries pairs := by
    simpa [run] using h1
  have hd : pairs.length = (run tools provider k).dispatched := by
    simpa [run] using h2
  exact ⟨pairs, hh, hd, by rw [hh, pairEntries_length, hd]⟩

/-- Claim C5: a run makes at most `k` gateway (`think`) calls when
`max_steps = k`; the recorded step counter values form the strictly
increasing sequence `1, 2, ..., m` for some `m ≤ k` (so the loop body runs
at most `k` times), and with `max_steps = 0` the run makes no gateway call
and returns no answer immediately with empty history. -/
theorem step_budget (tools : List (String × Tool))
    (provider : Nat → ProviderResult) :
    (∀ k, (run tools provider k).calls.length ≤ k ∧
      ∃ m, m ≤ k ∧
        (run tools provider k).calls = (List.range m).map (· + 1)) ∧
    run tools provider 0 = ⟨none, [], [], 0, none⟩ := by
  refine ⟨fun k => ?_, rfl⟩
  obtain ⟨m, hm, hcalls⟩ :=
    runGo_calls_range tools (fun n => think (provider n)) k 0 []
  have hc : (run tools provider k).calls = (List.range m).map (· + 1) := by
    rw [run, hcalls]
  refine ⟨?_, m, hm, hc⟩
  rw [hc]
  simp only [List.length_map, List.length_range]
  exact hm

/-- Claim C7: a generation failure is contained at the gateway boundary —
`think` converts any raised provider error into the no-result signal `none`
— and when the provider fails on step 1 the run returns no answer with the
history still empty (and no exception). -/
theorem gateway_failure_aborts (tools : List (String × Tool))
    (provider : Nat → ProviderResult) (k : Nat) (e : String)
    (hk : 0 < k) (h : provider 0 = Except.error e) :
    think (Except.error e) = none ∧
    run tools provider k = ⟨none, [], [1], 0, none⟩ := by
  refine ⟨rfl, ?_⟩
  obtain ⟨k, rfl⟩ : ∃ n, k = n + 1 := ⟨k - 1, by omega⟩
  simp [run, runGo, h, think, stepOf]

/-- Witness for `gateway_failure_aborts` at a concrete instance. -/
theorem gateway_failure_aborts_witness :
    0 < 1 ∧ (fun _ => (Except.error "transport" : ProviderResult)) 0
        = Except.error "transport" ∧
    run demoTools (fun _ => Except.error "transport") 1
      = ⟨none, [], [1], 0, none⟩ := by
  refine ⟨Nat.one_pos, rfl, ?_⟩
  exact (gateway_failure_aborts demoTools (fun _ => Except.error "transport")
    1 "transport" Nat.one_pos rfl).2

/-- Claim C10: a successful gateway call whose joined chunks form the empty
string is treated exactly like a generation failure: the loop aborts on that
step, returns no answer, and leaves the history as it was — the same outcome
as a provider error at the same point. -/
theorem empty_response_like_failure (tools : List (String × Tool))
    (provider provider2 : Nat → ProviderResult) (r step : Nat)
    (hist : List String) (chunks : List String) (e : String)
    (hok : provider step = Except.ok chunks)
    (hjoin : String.join chunks = "")
    (herr : provider2 step = Except.error e) :
    stepOf tools (think (provider step)) = StepOut.halt none ∧
    runGo tools (fun n => think (provider n)) (r + 1) step hist
      = ⟨none, hist, [step + 1], 0, none⟩ ∧
    runGo tools (fun n => think (provider2 n)) (r + 1) step hist
      = runGo tools (fun n => think (provider n)) (r + 1) step hist := by
  have hstep : stepOf tools (think (provider step)) = StepOut.halt none := by
    rw [hok]
    simp [think, stepOf, hjoin]
  have hstep2 : stepOf tools (think (provider2 step)) = StepOut.halt none := by
    rw [herr]
    simp [think, stepOf]
  refine ⟨hstep, ?_, ?_⟩
  · simp [runGo, hstep]
  · simp [runGo, hstep, hstep2]

/-- Witness for `empty_response_like_failure` at a concrete instance. -/
theorem empty_response_like_failure_witness :
    (fun _ => (Except.ok [] : ProviderResult)) 0 = Except.ok [] ∧
    String.join [] = "" ∧
    runGo demoTools (fun n => think ((fun _ => (Except.ok [] : ProviderResult)) n))
        1 0 [] = ⟨none, [], [1], 0, none⟩ := by
  refine ⟨rfl, rfl, ?_⟩
  exact (empty_response_like_failure demoTools (fun _ => Except.ok [])
    (fun _ => Except.error "x") 0 0 [] [] "x" rfl rfl rfl).2.1

/-- Claim C9: when the action parses to a present tool name but an empty
argument — as for the action text `"Search[]"` — the dispatch guard treats
the empty argument like an absent one: the run aborts on that step with no
answer, no tool dispatched, and the history unchanged, even when the named
tool is registered. -/
theorem empty_tool_input_aborts (tools : List (String × Tool))
    (oracle : Nat → Option String) (r step : Nat) (hist : List String)
    (t a name : String)
    (h1 : oracle step = some t) (h2 : t ≠ "")
    (h3 : (parseOutput t).2 = some a) (h4 : a ≠ "")
    (h5 : strStarts "Finish" (pyStrip a) = false)
    (h6 : parseAction a = some (name, "")) :
    parseAction "Search[]" = some ("Search", "") ∧
    runGo tools oracle (r + 1) step hist = ⟨none, hist, [step + 1], 0, none⟩ := by
  have hstep : stepOf tools (oracle step) = StepOut.halt none := by
    rw [h1]
    simp [stepOf, h2, h3, h4, h5, h6]
  exact ⟨by decide, by simp [runGo, hstep]⟩

/-- Witness for `empty_tool_input_aborts` at a concrete instance, with the
named tool registered. -/
theorem empty_tool_input_aborts_witness :
    (fun _ => some "Action: Search[]") 0 = some "Action: Search[]" ∧
    (parseOutput "Action: Search[]").2 = some "Search[]" ∧
    strStarts "Finish" (pyStrip "Search[]") = false ∧
    parseAction "Search[]" = some ("Search", "") ∧
    runGo demoTools (fun _ => some "Action: Search[]") 1 0 []
      = ⟨none, [], [1], 0, none⟩ := by
  refine ⟨rfl, by decide, by decide, by decide, ?_⟩
  exact (empty_tool_input_aborts demoTools (fun _ => some "Action: Search[]")
    0 0 [] "Action: Search[]" "Search[]" "Search" rfl (by decide) (by decide)
    (by decide) (by decide) (by decide)).2

/-- Claim C6: dispatching to an unregistered tool name never aborts that
step: the step outcome is a continuation whose observation is the fixed
"tool not found" message naming the missing tool, the history gains exactly
that Action/Observation pair, and the loop proceeds with the next iteration
on the extended history (the budget reduced by one). -/
theorem unknown_tool_continues (tools : List (String × Tool))
    (oracle : Nat → Option String) (r step : Nat) (hist : List String)
    (t a name arg : String)
    (h1 : oracle step = some t) (h2 : t ≠ "")
    (h3 : (parseOutput t).2 = some a) (h4 : a ≠ "")
    (h5 : strStarts "Finish" (pyStrip a) = false)
    (h6 : parseAction a = some (name, arg)) (h7 : name ≠ "") (h8 : arg ≠ "")
    (h9 : lookupTool tools name = none) :
    stepOf tools (oracle step) = StepOut.grow a (toolNotFoundMsg name) ∧
    runGo tools oracle (r + 1) step hist =
      { answer := (runGo tools oracle r (step + 1)
          (hist ++ ["Action: " ++ a,
            "Observation: " ++ toolNotFoundMsg name])).answer
        history := (runGo tools oracle r (step + 1)
          (hist ++ ["Action: " ++ a,
            "Observation: " ++ toolNotFoundMsg name])).history
        calls := (step + 1) :: (runGo tools oracle r (step + 1)
          (hist ++ ["Action: " ++ a,
            "Observation: " ++ toolNotFoundMsg name])).calls
        dispatched := (runGo tools oracle r (step + 1)
          (hist ++ ["Action: " ++ a,
            "Observation: " ++ toolNotFoundMsg name])).dispatched + 1
        exn := (runGo tools oracle r (step + 1)
          (hist ++ ["Action: " ++ a,
            "Observation: " ++ toolNotFoundMsg name])).exn } := by
  have hstep : stepOf tools (oracle step) = StepOut.grow a (toolNotFoundMsg name) := by
    rw [h1]
    simp [stepOf, h2, h3, h4, h5, h6, h7, h8, h9]
  exact ⟨hstep, by simp [runGo, hstep]⟩

/-- Witness for `unknown_tool_continues` at a concrete instance: the
registry knows only `Search`, the model asks for `Missing`. -/
theorem unknown_tool_continues_witness :
    lookupTool demoTools "Missing" = none ∧
    stepOf demoTools (some "Action: Missing[q]")
      = StepOut.grow "Missing[q]" (toolNotFoundMsg "Missing") ∧
    runGo demoTools (fun _ => some "Action: Missing[q]") 1 0 []
      = ⟨none, ["Action: Missing[q]", "Observation: " ++ toolNotFoundMsg "Missing"],
          [1], 1, none⟩ := by
  have h := unknown_tool_continues demoTools (fun _ => some "Action: Missing[q]")
    0 0 [] "Action: Missing[q]" "Missing[q]" "Missing" "q" rfl (by decide)
    (by decide) (by decide) (by decide) (by decide) (by decide) (by decide)
    rfl
  exact ⟨rfl, h.1, by rw [h.2]; decide⟩

/-- Claim C3 counterexample: with a registered tool that raises, the
exception escapes `run` — the run neither returns a final answer nor the
"no answer" value.  (§4.4/§7 of the spec itself note that tool faults are
uncaught, so the claim's quantification over every tool behaviour fails.) -/
theorem run_tool_fault_escapes :
    (run boomTools (fun _ => Except.ok ["Action: Boom[x]"]) 5).exn
      = some "boom" := by decide

/-- Claim C3, amended: for every Model Gateway behaviour and every registry
whose tools all return observations (no tool raises), `run` never raises —
it always terminates with either a final-answer string or the explicit "no
answer" value `none`, which are mutually exclusive outcomes of the same
`Option` result. -/
theorem run_never_raises (tools : List (String × Tool))
    (provider : Nat → ProviderResult) (k : Nat) (hT : ToolsTotal tools) :
    (run tools provider k).exn = none := by
  exact runGo_exn_none tools (fun n => think (provider n)) hT k 0 []

/-- Witness for `run_never_raises` at a concrete instance. -/
theorem run_never_raises_witness :
    ToolsTotal demoTools ∧
    (run demoTools (fun _ => Except.ok ["Action: Search[q]"]) 3).exn = none := by
  have hT : ToolsTotal demoTools := by
    intro p hp arg
    simp only [demoTools, List.mem_singleton] at hp
    rw [hp]
    exact ⟨"result for " ++ arg, rfl⟩
  exact ⟨hT, run_never_raises demoTools (fun _ => Except.ok ["Action: Search[q]"]) 3 hT⟩

/-! ## Claim theorems: the action parser -/

theorem string_eq_iff_data (s r : String) : s = r ↔ s.data = r.data := by
  constructor
  · exact congrArg _
  · intro h
    exact congrArg String.mk h

/-- Claim C8: `parse_action` returns the pair exactly when the action text
begins with a non-empty identifier of word characters immediately followed
by `'['` and a later `']'` — the pattern `<identifier>[<argument>]`, the
argument free to contain newlines, the reported argument extending to the
last `']'` of the text (nothing after it containing `']'`); on no match both
fields are absent.  In particular the claim's Search example holds. -/
theorem parse_action_characterization :
    (∀ t name arg : String,
      parseAction t = some (name, arg) ↔
        name ≠ "" ∧ name.data.all isWordChar = true ∧
        ∃ rest : List Char,
          t.data = name.data ++ '[' :: (arg.data ++ ']' :: rest) ∧
          ']' ∉ rest) ∧
    parseAction "Search[2025124期 双色球]" = some ("Search", "2025124期 双色球") := by
  refine ⟨fun t name arg => ⟨?_, ?_⟩, by decide⟩
  · intro h
    simp only [parseAction] at h
    by_cases hw0 : t.data.takeWhile isWordChar = []
    · rw [if_pos hw0] at h
      exact absurd h (by simp)
    · rw [if_neg hw0] at h
      by_cases hhead :
          (t.data.drop (t.data.takeWhile isWordChar).length).head? = some '['
      · rw [if_pos hhead] at h
        cases hlast : lastIdxOf ']'
            (t.data.drop (t.data.takeWhile isWordChar).length).tail with
        | none =>
          rw [hlast] at h
          exact absurd h (by simp)
        | some i =>
          rw [hlast] at h
          simp only [Option.some.injEq, Prod.mk.injEq] at h
          obtain ⟨hname, harg⟩ := h
          obtain ⟨r1, r2, hr, hlen, hnotin⟩ := (lastIdxOf_eq_some _ _ i).mp hlast
          have hcons : t.data.drop (t.data.takeWhile isWordChar).length =
              '[' :: (t.data.drop (t.data.takeWhile isWordChar).length).tail := by
            cases hq : t.data.drop (t.data.takeWhile isWordChar).length with
            | nil => rw [hq] at hhead; simp at hhead
            | cons c rr =>
              rw [hq] at hhead
              simp only [List.head?_cons, Option.some.injEq] at hhead
              rw [hhead]
              simp
          have hsplit : t.data =
              t.data.takeWhile isWordChar ++
                t.data.drop (t.data.takeWhile isWordChar).length := by
            rw [drop_length_takeWhile]
            exact (List.takeWhile_append_dropWhile isWordChar t.data).symm
          refine ⟨?_, ?_, r2, ?_, hnotin⟩
          · rw [← hname, Ne, string_eq_iff_data]
            simpa using hw0
          · rw [← hname]
            exact List.all_eq_true.mpr fun x hx => List.mem_takeWhile_imp hx
          · have harg2 : arg.data = r1 := by
              rw [← harg]
              show (_ : List Char).take i = r1
              rw [hr, ← hlen, List.take_left]
            rw [← hname, harg2]
            show t.data = t.data.takeWhile isWordChar ++ '[' :: (r1 ++ ']' :: r2)
            rw [← hr, ← hcons]
            exact hsplit
      · rw [if_neg hhead] at h
        exact absurd h (by simp)
  · rintro ⟨hne, hall, rest, hdecomp, hnotin⟩
    have hw : t.data.takeWhile isWordChar = name.data := by
      rw [hdecomp]
      refine takeWhile_append_eq _ _ _ (List.all_eq_true.mp hall) ?_
      intro c hc
      simp only [List.head?_cons, Option.some.injEq] at hc
      rw [← hc]
      decide
    have hdrop : t.data.drop (t.data.takeWhile isWordChar).length =
        '[' :: (arg.data ++ ']' :: rest) := by
      rw [hw, hdecomp]
      exact List.drop_left _ _
    simp only [parseAction]
    rw [hdrop, hw, if_neg (by rw [Ne, string_eq_iff_data] at hne; simpa using hne)]
    rw [if_pos (by simp)]
    simp only [List.tail_cons]
    rw [(lastIdxOf_eq_some _ _ arg.data.length).mpr
      ⟨arg.data, rest, rfl, rfl, hnotin⟩]
    show some ((⟨name.data⟩ : String),
        (⟨(arg.data ++ ']' :: rest).take arg.data.length⟩ : String))
      = some (name, arg)
    rw [List.take_left]

/-- Witness for `parse_action_characterization` at a concrete instance. -/
theorem parse_action_characterization_witness :
    parseAction "Go[north]" = some ("Go", "north") := by
  exact (parse_action_characterization.1 "Go[north]" "Go" "north").mpr
    ⟨by decide, by decide, [], by decide, by decide⟩

/-! ## Claim theorems: parse_output -/

theorem lazyTake_eq_take (stop : List Char → Bool) (l : List Char) :
    lazyTake stop l = l.take (firstStop stop l) := by
  induction l with
  | nil =>
    have h0 : firstStop stop [] = 0 := by
      unfold firstStop
      rw [show List.range (List.length ([] : List Char) + 1) = [0] from rfl]
      rw [List.find?_cons_of_pos _ (by simp)]
      rfl
    rw [h0]
    rfl
  | cons c cs ih =>
    by_cases hstop : stop (c :: cs)
    · have h0 : firstStop stop (c :: cs) = 0 := by
        unfold firstStop
        rw [List.range_succ_eq_map]
        rw [List.find?_cons_of_pos _ (by simp [hstop])]
        rfl
      rw [h0]
      simp [lazyTake, hstop]
    · have hshift : firstStop stop (c :: cs) = firstStop stop cs + 1 := by
        unfold firstStop
        rw [show (c :: cs).length + 1 = (cs.length + 1) + 1 from rfl]
        rw [List.range_succ_eq_map]
        rw [List.find?_cons_of_neg _ (by simp [hstop])]
        rw [List.find?_map]
        have hcomp : ((fun j => stop ((c :: cs).drop j) ||
              decide ((c :: cs).length ≤ j)) ∘ Nat.succ)
            = fun j => stop (cs.drop j) || decide (cs.length ≤ j) := by
          funext j
          simp only [Function.comp_apply, List.drop_succ_cons, List.length_cons]
          have h2 : decide (cs.length + 1 ≤ j + 1) = decide (cs.length ≤ j) :=
            decide_eq_decide.mpr (by omega)
          rw [h2]
        rw [hcomp]
        cases hfind : (List.range (cs.length + 1)).find?
            (fun j => stop (cs.drop j) || decide (cs.length ≤ j)) with
        | none =>
          exfalso
          have hmem : cs.length ∈ List.range (cs.length + 1) := by
            simp
          have := List.find?_eq_none.mp hfind cs.length hmem
          simp at this
        | some j => simp
      rw [hshift]
      rw [List.take_succ_cons]
      simp [lazyTake, hstop, ih]

theorem thoughtOf_eq_amended (l : List Char) : thoughtOf l = amendedThought l := by
  simp only [thoughtOf, amendedThought]
  cases findSub "Thought:".data l with
  | none => rfl
  | some i =>
    show some _ = some _
    congr 1
    dsimp only
    rw [drop_length_takeWhile, lazyTake_eq_take]

theorem actionOf_eq_amended (l : List Char) : actionOf l = amendedAction l := by
  simp only [actionOf, amendedAction]
  cases findSub "Action:".data l with
  | none => rfl
  | some i =>
    show some _ = some _
    congr 1
    dsimp only
    rw [drop_length_takeWhile, lazyTake_eq_take]

/-- Claim C1 counterexample: on a text whose first `"Action:"` marker sits
mid-line, `_parse_output` extracts the action from the FIRST marker (and the
thought runs past the mid-line marker), not from the last marker as the
claim states: the claim predicts `(some "T", some "B")` here, the code
returns `(some "T Action: A", some "A\nAction: B")`. -/
theorem parse_output_last_marker_counterexample :
    parseOutput "Thought: T Action: A\nAction: B"
        = (some "T Action: A", some "A\nAction: B") ∧
    claimParseOutput "Thought: T Action: A\nAction: B"
        = (some "T", some "B") := by decide

/-- Claim C1, amended: for every raw model text, `parse_output` returns
`(thought, action)` where `thought` is the text following the first
`"Thought:"` marker — the whitespace run after the marker skipped — up to
(not including) the next `"Action:"` marker that immediately follows a
newline, or to end of text (a single trailing newline excluded), trimmed;
and `action` is the text following the FIRST `"Action:"` marker to end of
text (whitespace after the marker skipped, a single trailing newline
excluded), trimmed.  A missing marker yields an absent value, not an error.
In particular `parse_output("Thought: T\nAction: Finish[A]")` returns
thought `"T"` and action `"Finish[A]"`. -/
theorem parse_output_spec :
    (∀ text : String, parseOutput text = amendedParseOutput text) ∧
    parseOutput "Thought: T\nAction: Finish[A]" = (some "T", some "Finish[A]") := by
  refine ⟨fun text => ?_, by decide⟩
  unfold parseOutput amendedParseOutput
  rw [thoughtOf_eq_amended, actionOf_eq_amended]

/-! ## Claim theorems: final-answer extraction -/

theorem finishBracket_eq_some (s inner : List Char) :
    finishBracket s = some inner ↔
      ∃ ws rest : List Char, (∀ c ∈ ws, pyIsSpace c = true) ∧ ']' ∉ rest ∧
        s = "Finish".data ++ ws ++ '[' :: (inner ++ ']' :: rest) := by
  constructor
  · intro h
    simp only [finishBracket] at h
    by_cases hpre : "Finish".data.isPrefixOf s
    · rw [if_pos hpre] at h
      by_cases hhead :
          ((s.drop 6).drop ((s.drop 6).takeWhile pyIsSpace).length).head? = some '['
      · rw [if_pos hhead] at h
        cases hlast : lastIdxOf ']'
            ((s.drop 6).drop ((s.drop 6).takeWhile pyIsSpace).length).tail with
        | none =>
          rw [hlast] at h
          exact absurd h (by simp)
        | some i =>
          rw [hlast] at h
          simp only [Option.some.injEq] at h
          obtain ⟨r1, r2, hr, hlen, hnotin⟩ := (lastIdxOf_eq_some _ _ i).mp hlast
          have hs6 : s = "Finish".data ++ s.drop 6 := by
            obtain ⟨t2, ht⟩ := List.isPrefixOf_iff_prefix.mp hpre
            rw [← ht, List.drop_left' (by decide)]
          have hr2 : (s.drop 6).drop ((s.drop 6).takeWhile pyIsSpace).length
              = (s.drop 6).dropWhile pyIsSpace := drop_length_takeWhile _ _
          have hcons : (s.drop 6).dropWhile pyIsSpace
              = '[' :: ((s.drop 6).dropWhile pyIsSpace).tail := by
            rw [hr2] at hhead
            cases hq : (s.drop 6).dropWhile pyIsSpace with
            | nil => rw [hq] at hhead; simp at hhead
            | cons c rr =>
              rw [hq] at hhead
              simp only [List.head?_cons, Option.some.injEq] at hhead
              rw [hhead]
              simp
          have hinner : inner = r1 := by
            rw [← h]
            show (_ : List Char).take i = r1
            rw [hr, ← hlen, List.take_left]
          refine ⟨(s.drop 6).takeWhile pyIsSpace, r2,
            fun c hc => List.mem_takeWhile_imp hc, hnotin, ?_⟩
          rw [hinner]
          conv_lhs => rw [hs6]
          rw [List.append_assoc]
          congr 1
          conv_lhs => rw [← List.takeWhile_append_dropWhile pyIsSpace (s.drop 6)]
          congr 1
          rw [hcons]
          congr 1
          rw [← hr2]
          exact hr
      · rw [if_neg hhead] at h
        exact absurd h (by simp)
    · rw [if_neg hpre] at h
      exact absurd h (by simp)
  · rintro ⟨ws, rest, hws, hnotin, hdecomp⟩
    have hpre : "Finish".data.isPrefixOf s := by
      rw [hdecomp, List.append_assoc]
      exact List.isPrefixOf_iff_prefix.mpr (List.prefix_append _ _)
    have hr : s.drop 6 = ws ++ '[' :: (inner ++ ']' :: rest) := by
      rw [hdecomp, List.append_assoc]
      exact List.drop_left' (by decide)
    have htw : (s.drop 6).takeWhile pyIsSpace = ws := by
      rw [hr]
      refine takeWhile_append_eq _ _ _ hws ?_
      intro c hc
      simp only [List.head?_cons, Option.some.injEq] at hc
      rw [← hc]
      decide
    have hr2 : (s.drop 6).drop ((s.drop 6).takeWhile pyIsSpace).length
        = '[' :: (inner ++ ']' :: rest) := by
      rw [htw, hr]
      exact List.drop_left _ _
    simp only [finishBracket]
    rw [if_pos hpre, hr2]
    rw [if_pos (by simp)]
    simp only [List.tail_cons]
    rw [(lastIdxOf_eq_some _ _ inner.length).mpr ⟨inner, rest, rfl, rfl, hnotin⟩]
    show some ((inner ++ ']' :: rest).take inner.length) = some inner
    rw [List.take_left]

/-- Claim C2: the final-answer extraction follows the layered policy, in
priority order, on the trimmed action text: (a) if it has the bracketed form
`Finish[<answer>]` — whitespace tolerated between the token and `'['`, the
answer free to span lines, the closing bracket being the last `']'` of the
text — the answer is the bracketed content, trimmed; (b) otherwise the
leading `"Finish"` together with the following non-empty run of separator
characters (`'['`, `':'`, the full-width colon, whitespace) is stripped and
the trimmed remainder is used, (c) unless that remainder is empty, in which
case the full original action text, trimmed, is used.  In particular the
claim's two examples hold. -/
theorem extract_final_answer_policy :
    (∀ action : String, ∀ ws inner rest : List Char,
       (∀ c ∈ ws, pyIsSpace c = true) → ']' ∉ rest →
       pyStripList action.data
         = "Finish".data ++ ws ++ '[' :: (inner ++ ']' :: rest) →
       extractFinalAnswer action = ⟨pyStripList inner⟩) ∧
    (∀ action : String, ∀ seps rem : List Char,
       (¬ ∃ ws inner rest : List Char,
          (∀ c ∈ ws, pyIsSpace c = true) ∧ ']' ∉ rest ∧
          pyStripList action.data
            = "Finish".data ++ ws ++ '[' :: (inner ++ ']' :: rest)) →
       (∀ c ∈ seps, isSepChar c = true) → seps ≠ [] →
       (∀ c, rem.head? = some c → isSepChar c = false) →
       pyStripList action.data = "Finish".data ++ seps ++ rem →
       extractFinalAnswer action =
         if pyStripList rem = [] then pyStrip action else ⟨pyStripList rem⟩) ∧
    extractFinalAnswer "Finish: the answer is 42" = "the answer is 42" ∧
    extractFinalAnswer "Finish" = "Finish" := by
  refine ⟨?_, ?_, by decide, by decide⟩
  · intro action ws inner rest h1 h2 h3
    have hfb : finishBracket (pyStripList action.data) = some inner :=
      (finishBracket_eq_some _ _).mpr ⟨ws, rest, h1, h2, h3⟩
    simp only [extractFinalAnswer]
    rw [hfb]
  · intro action seps rem hno h1 h2 h3 h4
    have hfb : finishBracket (pyStripList action.data) = none := by
      cases hf : finishBracket (pyStripList action.data) with
      | none => rfl
      | some inner =>
        obtain ⟨ws, rest, ha, hb, hc⟩ := (finishBracket_eq_some _ _).mp hf
        exact absurd ⟨ws, inner, rest, ha, hb, hc⟩ hno
    have hpre : "Finish".data.isPrefixOf (pyStripList action.data) := by
      rw [h4, List.append_assoc]
      exact List.isPrefixOf_iff_prefix.mpr (List.prefix_append _ _)
    have hr : (pyStripList action.data).drop 6 = seps ++ rem := by
      rw [h4, List.append_assoc]
      exact List.drop_left' (by decide)
    have htk : ((pyStripList action.data).drop 6).takeWhile isSepChar = seps := by
      rw [hr]
      exact takeWhile_append_eq _ _ _ h1 h3
    have hk : seps.length ≠ 0 := fun h => h2 (List.length_eq_zero.mp h)
    simp only [extractFinalAnswer]
    rw [hfb]
    dsimp only
    rw [if_pos hpre, htk, if_neg hk, hr, List.drop_left]
    rfl

/-- Witness for `extract_final_answer_policy` at concrete instances of the
bracketed case and of the stripping case. -/
theorem extract_final_answer_policy_witness :
    extractFinalAnswer "Finish [ A ]" = "A" ∧
    extractFinalAnswer "Finish: the answer is 42" = "the answer is 42" := by
  constructor
  · have h := extract_final_answer_policy.1 "Finish [ A ]" [' '] [' ', 'A', ' '] []
      (by decide) (by decide) (by decide)
    rw [h]
    decide
  · have hno : ¬ ∃ ws inner rest : List Char,
        (∀ c ∈ ws, pyIsSpace c = true) ∧ ']' ∉ rest ∧
        pyStripList ("Finish: the answer is 42" : String).data
          = "Finish".data ++ ws ++ '[' :: (inner ++ ']' :: rest) := by
      rintro ⟨ws, inner, rest, ha, hb, hc⟩
      have h := (finishBracket_eq_some
        (pyStripList ("Finish: the answer is 42" : String).data) inner).mpr
        ⟨ws, rest, ha, hb, hc⟩
      rw [show finishBracket
        (pyStripList ("Finish: the answer is 42" : String).data) = none
        from by decide] at h
      exact absurd h (by simp)
    have h := extract_final_answer_policy.2.1 "Finish: the answer is 42"
      [':', ' '] "the answer is 42".data hno (by decide) (by decide)
      (by decide) (by decide)
    rw [h]
    decide

end React
